import Mathlib

/-!
Verification development for the anchor-locate-and-splice operation of
src/fix_types.py.

The program reads a text file into a list of lines via readlines, which
keeps each trailing line terminator; scans for the first line containing
the marker substring; from that line scans forward for the first line
whose stripped content is exactly a single closing brace; when found,
keeps the lines up to and including that boundary line, appends a fixed
payload string, and writes the result back.  When no boundary is found it
writes nothing and reports not-found.

The embedding works at the text level: a file content is a list of
characters, a line is a list of characters.  The write-back step is
modelled by the returned Option value: some content means the file is
rewritten with exactly that content and success is reported, none means
no write happens and not-found is reported.
-/

namespace FixTypes

/-- The closing-brace character. -/
def rbraceChar : Char := '\x7d'

/-- Embedding of the Python str.isspace test used by str.strip, over
Unicode scalar values. -/
def pyIsSpace (c : Char) : Bool :=
  decide (('\x09' ≤ c ∧ c ≤ '\x0d') ∨ c = ' ' ∨ ('\x1c' ≤ c ∧ c ≤ '\x1f') ∨
    c = '\x85' ∨ c = '\xa0' ∨ c = '\u1680' ∨ ('\u2000' ≤ c ∧ c ≤ '\u200a') ∨
    c = '\u2028' ∨ c = '\u2029' ∨ c = '\u202f' ∨ c = '\u205f' ∨ c = '\u3000')

/-- Embedding of the Python str.strip method: remove whitespace from both
ends of a line. -/
def pyStrip (s : List Char) : List Char :=
  ((s.dropWhile pyIsSpace).reverse.dropWhile pyIsSpace).reverse

/-- Test whether the first list is an initial segment of the second. -/
def listStartsWith : List Char → List Char → Bool
  | [], _ => true
  | _ :: _, [] => false
  | p :: ps, c :: cs => p = c && listStartsWith ps cs

/-- Embedding of the Python substring test (the in operator on strings):
pat occurs contiguously somewhere in s. -/
def containsSub (pat : List Char) : List Char → Bool
  | [] => listStartsWith pat []
  | c :: cs => listStartsWith pat (c :: cs) || containsSub pat cs

/-- Embedding of the Python readlines method on the decoded text: split
into lines, each keeping its trailing newline character; a final chunk
without a newline is kept as well. -/
def readlines : List Char → List (List Char)
  | [] => []
  | c :: cs =>
    if c = '\n' then
      [c] :: readlines cs
    else
      match readlines cs with
      | [] => [[c]]
      | l :: ls => (c :: l) :: ls

/-- Index of the first element satisfying p, if any.  Embeds the forward
scan of the enumerate loop in the source. -/
def firstIdx {α : Type} (p : α → Bool) : List α → Option Nat
  | [] => none
  | a :: as => if p a then some 0 else (firstIdx p as).map fun n => n + 1

/-- Index of the first element at position i or later satisfying p, if
any.  Embeds the inner range scan of the source. -/
def firstIdxFrom {α : Type} (p : α → Bool) (xs : List α) (i : Nat) : Option Nat :=
  (firstIdx p (xs.drop i)).map fun n => n + i

/-- The boundary test of the source: the stripped line equals the
one-character closing-brace string. -/
def isBraceLine (l : List Char) : Bool :=
  decide (pyStrip l = [rbraceChar])

/-- Embedding of the nested loops computing limit_end_index in the
source: find the first line containing the marker, then from that line
the first line stripping to a lone closing brace.  The sentinel value -1
is rendered as none. -/
def limit_end_index (marker : List Char) (lines : List (List Char)) : Option Nat :=
  match firstIdx (fun l => containsSub marker l) lines with
  | none => none
  | some i => firstIdxFrom isBraceLine lines i

/-- The splice-and-append step of the source on the line model: keep
lines 0 through the boundary inclusive and append the payload as one
final element; writelines then concatenates everything.  none models the
no-write, not-found outcome. -/
def fixLines (marker payload : List Char) (lines : List (List Char)) : Option (List Char) :=
  match limit_end_index marker lines with
  | none => none
  | some b => some ((lines.take (b + 1)).flatten ++ payload)

/-- The whole operation on file content: read lines, locate the
boundary, splice and append.  some c means the file is rewritten to
content c and success is reported; none means no write occurs and
not-found is reported. -/
def fixTypes (marker payload content : List Char) : Option (List Char) :=
  fixLines marker payload (readlines content)

/-- The concrete marker substring hardcoded in the source. -/
def targetMarker : List Char :=
  "export interface TransactionLimit".data

/-- The concrete Append Payload hardcoded in the source (the new_types
string literal), with braces and quotes escaped. -/
def new_types : List Char :=
  "\nexport interface AntiFraudRule \x7b\n  ruleId: string;\n  ruleName: string;\n  keyFingerprint?: string;\n  createdAt: number;\n  expiresAt?: number;\n\x7d\n\nexport interface KeyVerificationResult \x7b\n  verified: boolean;\n  error?: string;\n  timestamp: number;\n  method?: \x27manual\x27 | \x27biometric\x27 | \x27automatic\x27;\n\x7d\n\nexport interface KeyExchangeSession \x7b\n  sessionId: string;\n  chatId: string;\n  participantId: string;\n  status: \x27pending\x27 | \x27key_exchange\x27 | \x27established\x27 | \x27verified\x27 | \x27failed\x27;\n  keyFingerprint?: string;\n  createdAt: number;\n  updatedAt: number;\n\x7d\n\nexport type DLPCategory = \x27financial\x27 | \x27personal\x27 | \x27health\x27 | \x27profanity\x27 | \x27custom\x27;\n\nexport interface DLPViolation \x7b\n  category: DLPCategory;\n  matches: string[];\n  confidence: number;\n  startIndex: number;\n  endIndex: number;\n\x7d\n\nexport interface E2EEMessage \x7b\n  id: string;\n  senderId: string;\n  content: string; // Encrypted content\n  timestamp: number;\n  protocolVersion: number;\n  iv: string;\n  senderKeyId?: number;\n  receiverKeyId?: number;\n  signature?: string;\n\x7d\n".data

/-- Characterization of the forward scan: it returns index k exactly when
the element at k satisfies p and no earlier element does. -/
theorem firstIdx_eq_some_iff {α : Type} (p : α → Bool) (xs : List α) (k : Nat) :
    firstIdx p xs = some k ↔
      ((∃ x, xs[k]? = some x ∧ p x = true) ∧
        ∀ m, m < k → ∀ x, xs[m]? = some x → p x = false) := by
  induction xs generalizing k with
  | nil => simp [firstIdx]
  | cons a as ih =>
    by_cases h : p a
    · simp only [firstIdx, h, if_true]
      constructor
      · intro hk
        obtain rfl : (0 : Nat) = k := by simpa using hk
        exact ⟨⟨a, by simp, h⟩, fun m hm => by omega⟩
      · rintro ⟨⟨x, hx, hpx⟩, hmin⟩
        cases k with
        | zero => rfl
        | succ k =>
          have := hmin 0 (by omega) a (by simp)
          simp [h] at this
    · simp only [firstIdx, h, if_false]
      constructor
      · intro hk
        obtain ⟨k', hk', rfl⟩ : ∃ k', firstIdx p as = some k' ∧ k = k' + 1 := by
          cases hfi : firstIdx p as with
          | none => simp [hfi] at hk
          | some k' =>
            refine ⟨k', rfl, ?_⟩
            simp [hfi] at hk
            omega
        obtain ⟨⟨x, hx, hpx⟩, hmin⟩ := (ih k').mp hk'
        refine ⟨⟨x, by simpa using hx, hpx⟩, ?_⟩
        intro m hm y hy
        cases m with
        | zero =>
          have hay : a = y := by simpa using hy
          subst hay
          simpa using h
        | succ m => exact hmin m (by omega) y (by simpa using hy)
      · rintro ⟨⟨x, hx, hpx⟩, hmin⟩
        cases k with
        | zero =>
          have hax : a = x := by simpa using hx
          subst hax
          exact absurd hpx (by simpa using h)
        | succ k =>
          have has : firstIdx p as = some k := by
            refine (ih k).mpr ⟨⟨x, by simpa using hx, hpx⟩, ?_⟩
            intro m hm y hy
            exact hmin (m + 1) (by omega) y (by simpa using hy)
          simp [has]

/-- The forward scan returns none exactly when no element satisfies p. -/
theorem firstIdx_eq_none_iff {α : Type} (p : α → Bool) (xs : List α) :
    firstIdx p xs = none ↔ ∀ x ∈ xs, p x = false := by
  induction xs with
  | nil => simp [firstIdx]
  | cons a as ih =>
    by_cases h : p a
    · simp [firstIdx, h]
    · simp [firstIdx, h, Option.map_eq_none', ih]

/-- A found index points below the length of the list. -/
theorem firstIdx_lt_length {α : Type} {p : α → Bool} {xs : List α} {k : Nat}
    (h : firstIdx p xs = some k) : k < xs.length := by
  obtain ⟨⟨x, hx, _⟩, _⟩ := (firstIdx_eq_some_iff p xs k).mp h
  exact (List.getElem?_eq_some_iff.mp hx).choose

/-- Characterization of the scan starting at position i: it returns b
exactly when b is at or after i, the element at b satisfies p, and no
element from i up to b does. -/
theorem firstIdxFrom_eq_some_iff {α : Type} (p : α → Bool) (xs : List α) (i b : Nat) :
    firstIdxFrom p xs i = some b ↔
      (i ≤ b ∧ (∃ x, xs[b]? = some x ∧ p x = true) ∧
        ∀ m, i ≤ m → m < b → ∀ x, xs[m]? = some x → p x = false) := by
  unfold firstIdxFrom
  constructor
  · intro h
    obtain ⟨n, hn, rfl⟩ : ∃ n, firstIdx p (xs.drop i) = some n ∧ b = n + i := by
      cases hfi : firstIdx p (xs.drop i) with
      | none => simp [hfi] at h
      | some n =>
        refine ⟨n, rfl, ?_⟩
        simp [hfi] at h
        omega
    obtain ⟨⟨x, hx, hpx⟩, hmin⟩ := (firstIdx_eq_some_iff p _ n).mp hn
    rw [List.getElem?_drop] at hx
    refine ⟨by omega, ⟨x, by rw [show i + n = n + i by omega] at hx; exact hx, hpx⟩, ?_⟩
    intro m him hmb y hy
    have := hmin (m - i) (by omega) y
    rw [List.getElem?_drop, show i + (m - i) = m by omega] at this
    exact this hy
  · rintro ⟨hib, ⟨x, hx, hpx⟩, hmin⟩
    have hn : firstIdx p (xs.drop i) = some (b - i) := by
      refine (firstIdx_eq_some_iff p _ _).mpr ⟨⟨x, ?_, hpx⟩, ?_⟩
      · rw [List.getElem?_drop, show i + (b - i) = b by omega]; exact hx
      · intro m hm y hy
        rw [List.getElem?_drop] at hy
        exact hmin (i + m) (by omega) (by omega) y hy
    simp only [hn, Option.map_some']
    congr 1
    omega

/-- The scan starting at i returns none exactly when no element at or
after i satisfies p. -/
theorem firstIdxFrom_eq_none_iff {α : Type} (p : α → Bool) (xs : List α) (i : Nat) :
    firstIdxFrom p xs i = none ↔
      ∀ m x, i ≤ m → xs[m]? = some x → p x = false := by
  unfold firstIdxFrom
  rw [Option.map_eq_none', firstIdx_eq_none_iff]
  constructor
  · intro h m x him hmx
    refine h x (List.mem_iff_getElem?.mpr ⟨m - i, ?_⟩)
    rw [List.getElem?_drop, show i + (m - i) = m by omega]
    exact hmx
  · intro h x hx
    obtain ⟨n, hn⟩ := List.mem_iff_getElem?.mp hx
    rw [List.getElem?_drop] at hn
    exact h (i + n) x (by omega) hn

/-- The initial-segment test holds exactly when the second list extends
the first. -/
theorem listStartsWith_iff (p s : List Char) :
    listStartsWith p s = true ↔ ∃ r, s = p ++ r := by
  induction p generalizing s with
  | nil => exact iff_of_true rfl ⟨s, (List.nil_append s).symm⟩
  | cons a p ih =>
    cases s with
    | nil => simp [listStartsWith]
    | cons c cs =>
      simp only [listStartsWith, Bool.and_eq_true, decide_eq_true_eq, ih]
      constructor
      · rintro ⟨rfl, r, rfl⟩
        exact ⟨r, rfl⟩
      · rintro ⟨r, hr⟩
        simp only [List.cons_append, List.cons.injEq] at hr
        exact ⟨hr.1.symm, r, hr.2⟩

/-- The substring test of the source holds exactly when the pattern
occurs contiguously: the line splits as u, pattern, v. -/
theorem containsSub_iff (pat s : List Char) :
    containsSub pat s = true ↔ ∃ u v, s = u ++ pat ++ v := by
  induction s with
  | nil =>
    simp only [containsSub, listStartsWith_iff]
    constructor
    · rintro ⟨r, hr⟩
      exact ⟨[], r, by simpa using hr⟩
    · rintro ⟨u, v, huv⟩
      have h1 : u ++ pat = [] ∧ v = [] := List.append_eq_nil.mp huv.symm
      have h2 : u = [] ∧ pat = [] := List.append_eq_nil.mp h1.1
      exact ⟨[], by simp [h2.2]⟩
  | cons c cs ih =>
    simp only [containsSub, Bool.or_eq_true, listStartsWith_iff, ih]
    constructor
    · rintro (⟨r, hr⟩ | ⟨u, v, huv⟩)
      · exact ⟨[], r, by simp [hr]⟩
      · exact ⟨c :: u, v, by simp [huv]⟩
    · rintro ⟨u, v, huv⟩
      cases u with
      | nil => exact Or.inl ⟨v, by simpa using huv⟩
      | cons a u =>
        simp only [List.cons_append, List.cons.injEq] at huv
        exact Or.inr ⟨u, v, huv.2⟩

/-- The two nested scans of the source, composed: the boundary is b
exactly when some first marker line i exists and b is the first
closing-brace line at or after i. -/
theorem limit_end_index_eq_some_iff (marker : List Char) (L : List (List Char)) (b : Nat) :
    limit_end_index marker L = some b ↔
      ∃ i, firstIdx (fun l => containsSub marker l) L = some i ∧
        firstIdxFrom isBraceLine L i = some b := by
  unfold limit_end_index
  cases hf : firstIdx (fun l => containsSub marker l) L with
  | none => simp
  | some i => simp

/-- A found boundary is a valid index into the line list. -/
theorem limit_end_index_lt_length {marker : List Char} {L : List (List Char)} {b : Nat}
    (h : limit_end_index marker L = some b) : b < L.length := by
  obtain ⟨i, _, hb⟩ := (limit_end_index_eq_some_iff marker L b).mp h
  obtain ⟨_, ⟨x, hx, _⟩, _⟩ := (firstIdxFrom_eq_some_iff isBraceLine L i b).mp hb
  exact (List.getElem?_eq_some_iff.mp hx).choose

/-- The boundary only depends on the lines up to and including it: any
line list agreeing with L on the first b+1 entries yields the same
boundary. -/
theorem limit_end_index_take_stable (marker : List Char) (L Lp : List (List Char)) (b : Nat)
    (h : limit_end_index marker L = some b)
    (ht : Lp.take (b + 1) = L.take (b + 1)) :
    limit_end_index marker Lp = some b := by
  obtain ⟨i, hi, hb⟩ := (limit_end_index_eq_some_iff marker L b).mp h
  have hkey : ∀ k, k ≤ b → Lp[k]? = L[k]? := by
    intro k hk
    have h1 : (Lp.take (b + 1))[k]? = Lp[k]? := by
      rw [List.getElem?_take, if_pos (by omega)]
    have h2 : (L.take (b + 1))[k]? = L[k]? := by
      rw [List.getElem?_take, if_pos (by omega)]
    rw [← h1, ht, h2]
  obtain ⟨hib, ⟨y, hy, hpy⟩, hbmin⟩ := (firstIdxFrom_eq_some_iff isBraceLine L i b).mp hb
  obtain ⟨⟨x, hx, hpx⟩, hmin⟩ :=
    (firstIdx_eq_some_iff (fun l => containsSub marker l) L i).mp hi
  have hi' : firstIdx (fun l => containsSub marker l) Lp = some i := by
    refine (firstIdx_eq_some_iff _ _ _).mpr ⟨⟨x, ?_, hpx⟩, ?_⟩
    · rw [hkey i hib]; exact hx
    · intro m hm z hz
      exact hmin m hm z (by rw [← hkey m (by omega)]; exact hz)
  have hb' : firstIdxFrom isBraceLine Lp i = some b := by
    refine (firstIdxFrom_eq_some_iff _ _ _ _).mpr ⟨hib, ⟨y, ?_, hpy⟩, ?_⟩
    · rw [hkey b (by omega)]; exact hy
    · intro m him hmb z hz
      exact hbmin m him hmb z (by rw [← hkey m (by omega)]; exact hz)
  exact (limit_end_index_eq_some_iff marker Lp b).mpr ⟨i, hi', hb'⟩

/-- Inversion for the splice step: a successful run exposes the boundary
and the produced content. -/
theorem fixLines_eq_some_iff (marker payload : List Char) (L : List (List Char))
    (out : List Char) :
    fixLines marker payload L = some out ↔
      ∃ b, limit_end_index marker L = some b ∧
        out = (L.take (b + 1)).flatten ++ payload := by
  unfold fixLines
  cases h : limit_end_index marker L with
  | none => simp
  | some b => simp [eq_comm]

/-- Reading lines keeps every character: concatenating the chunks
restores the original content. -/
theorem flatten_readlines (cs : List Char) : (readlines cs).flatten = cs := by
  induction cs with
  | nil => rfl
  | cons c cs ih =>
    by_cases h : c = '\n'
    · subst h
      simp [readlines, ih]
    · cases hr : readlines cs with
      | nil =>
        have hnil : cs = [] := by rw [← ih, hr]; rfl
        subst hnil
        simp [readlines, h]
      | cons l ls =>
        have hc : readlines (c :: cs) = (c :: l) :: ls := by
          simp [readlines, h, hr]
        rw [hr] at ih
        rw [hc]
        simp only [List.flatten_cons, List.cons_append]
        rw [← List.flatten_cons, ih]

/-- Unfolding equation for readlines on a cons cell. -/
theorem readlines_cons (c : Char) (cs : List Char) :
    readlines (c :: cs) =
      if c = '\n' then [c] :: readlines cs
      else
        match readlines cs with
        | [] => [[c]]
        | l :: ls => (c :: l) :: ls := by
  rw [readlines]

/-- Reading a nonempty content yields at least one line. -/
theorem readlines_ne_nil {cs : List Char} (h : cs ≠ []) : readlines cs ≠ [] := by
  cases cs with
  | nil => exact absurd rfl h
  | cons c cs =>
    rw [readlines_cons]
    by_cases hc : c = '\n'
    · simp [hc]
    · rw [if_neg hc]
      cases hr : readlines cs with
      | nil => simp
      | cons l ls => simp

/-- Reading the content made of one newline-terminated line followed by
anything yields that line as the first chunk and parses the rest
independently. -/
theorem readlines_append_line (m : List Char) (hm : '\n' ∉ m) (rest : List Char) :
    readlines (m ++ '\n' :: rest) = (m ++ ['\n']) :: readlines rest := by
  induction m with
  | nil => simp [readlines_cons]
  | cons c m ih =>
    have hc : c ≠ '\n' := fun hcn => hm (by simp [hcn])
    have hm2 : '\n' ∉ m := fun hmem => hm (by simp [hmem])
    have hne : readlines (m ++ '\n' :: rest) = (m ++ ['\n']) :: readlines rest := ih hm2
    show readlines (c :: (m ++ '\n' :: rest)) = ((c :: m) ++ ['\n']) :: readlines rest
    rw [readlines_cons, if_neg hc, hne]
    rfl

/-- Content that is a concatenation of newline-terminated lines followed
by a remainder parses as exactly those lines followed by the parse of the
remainder. -/
theorem readlines_flatten_append (L : List (List Char))
    (hL : ∀ l ∈ L, ∃ m, '\n' ∉ m ∧ l = m ++ ['\n']) (rest : List Char) :
    readlines (L.flatten ++ rest) = L ++ readlines rest := by
  induction L with
  | nil => simp
  | cons l L ih =>
    obtain ⟨m, hm, rfl⟩ := hL l (by simp)
    have hrest : readlines (L.flatten ++ rest) = L ++ readlines rest :=
      ih fun lp hlp => hL lp (by simp [hlp])
    rw [List.flatten_cons, List.append_assoc, show (m ++ ['\n']) ++ (L.flatten ++ rest) =
      m ++ '\n' :: (L.flatten ++ rest) by simp, readlines_append_line m hm, hrest]
    simp

/-- When the content ends with a newline, every chunk produced by
readlines is a newline-terminated line with no interior newline. -/
theorem readlines_all_nl (cs : List Char) (h : cs.getLast? = some '\n') :
    ∀ l ∈ readlines cs, ∃ m, '\n' ∉ m ∧ l = m ++ ['\n'] := by
  induction cs with
  | nil => simp at h
  | cons c cs ih =>
    cases cs with
    | nil =>
      have hc : c = '\n' := by simpa using h
      subst hc
      intro l hl
      have hread : readlines ['\n'] = [['\n']] := by decide
      rw [hread] at hl
      have hle : l = ['\n'] := by simpa using hl
      subst hle
      exact ⟨[], by simp⟩
    | cons d ds =>
      have h2 : (d :: ds).getLast? = some '\n' := by
        rwa [List.getLast?_cons_cons] at h
      by_cases hc : c = '\n'
      · subst hc
        intro l hl
        rw [readlines_cons, if_pos rfl] at hl
        rcases List.mem_cons.mp hl with hl | hl
        · exact ⟨[], by simp, by simp [hl]⟩
        · exact ih h2 l hl
      · have hne : readlines (d :: ds) ≠ [] := readlines_ne_nil (by simp)
        obtain ⟨l0, ls, hr⟩ := List.exists_cons_of_ne_nil hne
        intro l hl
        have hread : readlines (c :: d :: ds) = (c :: l0) :: ls := by
          rw [readlines_cons, if_neg hc, hr]
        rw [hread] at hl
        rcases List.mem_cons.mp hl with hl | hl
        · obtain ⟨m, hm, hl0⟩ := ih h2 l0 (by simp [hr])
          refine ⟨c :: m, ?_, by simp [hl, hl0]⟩
          intro hmem
          rcases List.mem_cons.mp hmem with hmm | hmm
          · exact hc hmm.symm
          · exact hm hmm
        · exact ih h2 l (by simp [hr, hl])

/-- When no line contains the marker, the boundary search fails. -/
theorem limit_end_index_eq_none_of_no_marker (marker : List Char) (L : List (List Char))
    (h : ∀ l ∈ L, containsSub marker l = false) :
    limit_end_index marker L = none := by
  unfold limit_end_index
  rw [(firstIdx_eq_none_iff _ _).mpr h]

/-- Running the operation on the output of a successful run on a
newline-terminated document succeeds again and reproduces the output:
the kept prefix still holds the first marker line and the same first
closing-brace line, so the same prefix is kept and the same payload
appended. -/
theorem second_run_reproduces (marker payload content out : List Char)
    (hnl : content.getLast? = some '\n')
    (h : fixTypes marker payload content = some out) :
    fixTypes marker payload out = some out := by
  obtain ⟨b, hb, rfl⟩ := (fixLines_eq_some_iff marker payload (readlines content) out).mp h
  have hblt : b < (readlines content).length := limit_end_index_lt_length hb
  have hshape : ∀ l ∈ (readlines content).take (b + 1), ∃ m, '\n' ∉ m ∧ l = m ++ ['\n'] :=
    fun l hl => readlines_all_nl content hnl l (List.mem_of_mem_take hl)
  have hparse : readlines (((readlines content).take (b + 1)).flatten ++ payload) =
      (readlines content).take (b + 1) ++ readlines payload :=
    readlines_flatten_append _ hshape payload
  have hlen : ((readlines content).take (b + 1)).length = b + 1 :=
    List.length_take_of_le (by omega)
  have htake : ((readlines content).take (b + 1) ++ readlines payload).take (b + 1) =
      (readlines content).take (b + 1) :=
    List.take_left' hlen
  have hlim : limit_end_index marker
      ((readlines content).take (b + 1) ++ readlines payload) = some b :=
    limit_end_index_take_stable marker (readlines content) _ b hb htake
  show fixLines marker payload
      (readlines (((readlines content).take (b + 1)).flatten ++ payload)) = some _
  rw [hparse]
  exact (fixLines_eq_some_iff _ _ _ _).mpr ⟨b, hlim, by rw [htake]⟩

/-- C1: for every document with a line containing the marker (the first
such line sits at index i) and a line at or after it whose trimmed
content is exactly a lone closing brace, the operation rewrites the file
so that the final content is the original lines 0 through the boundary b
inclusive, bytes preserved (they are a prefix of the original content),
immediately followed by the payload text and nothing else. -/
theorem C1_truncate_and_append (marker payload content : List Char) (i j : Nat)
    (lj : List Char)
    (hm : firstIdx (fun l => containsSub marker l) (readlines content) = some i)
    (hij : i ≤ j) (hj : (readlines content)[j]? = some lj)
    (hbr : isBraceLine lj = true) :
    ∃ b rest, limit_end_index marker (readlines content) = some b ∧ b ≤ j ∧
      content = ((readlines content).take (b + 1)).flatten ++ rest ∧
      fixTypes marker payload content =
        some (((readlines content).take (b + 1)).flatten ++ payload) := by
  have hne : firstIdxFrom isBraceLine (readlines content) i ≠ none := by
    intro h0
    have := (firstIdxFrom_eq_none_iff isBraceLine (readlines content) i).mp h0 j lj hij hj
    simp [this] at hbr
  obtain ⟨b, hb⟩ := Option.ne_none_iff_exists'.mp hne
  have hlim : limit_end_index marker (readlines content) = some b :=
    (limit_end_index_eq_some_iff marker (readlines content) b).mpr ⟨i, hm, hb⟩
  have hbj : b ≤ j := by
    by_contra hgt
    push_neg at hgt
    obtain ⟨_, _, hmin⟩ :=
      (firstIdxFrom_eq_some_iff isBraceLine (readlines content) i b).mp hb
    have := hmin j hij hgt lj hj
    simp [this] at hbr
  refine ⟨b, ((readlines content).drop (b + 1)).flatten, hlim, hbj, ?_, ?_⟩
  · conv_lhs => rw [← flatten_readlines content]
    rw [← List.flatten_append, List.take_append_drop]
  · exact (fixLines_eq_some_iff _ _ _ _).mpr ⟨b, hlim, rfl⟩

/-- C2: for every document in which no line contains the marker
substring, the operation returns none: it performs no write, leaves the
file content untouched, and reports the not-found outcome. -/
theorem C2_marker_absent_no_write (marker payload content : List Char)
    (h : ∀ l ∈ readlines content, containsSub marker l = false) :
    fixTypes marker payload content = none := by
  show fixLines marker payload (readlines content) = none
  unfold fixLines
  rw [limit_end_index_eq_none_of_no_marker marker (readlines content) h]

/-- C3: for every document whose first marker line sits at index i but in
which no line at or after index i strips to a lone closing brace, the
operation returns none: the writer is never invoked and the file is left
unchanged. -/
theorem C3_no_boundary_no_write (marker payload content : List Char) (i : Nat)
    (hm : firstIdx (fun l => containsSub marker l) (readlines content) = some i)
    (h : ∀ l ∈ (readlines content).drop i, isBraceLine l = false) :
    fixTypes marker payload content = none := by
  have hfrom : firstIdxFrom isBraceLine (readlines content) i = none := by
    unfold firstIdxFrom
    rw [(firstIdx_eq_none_iff _ _).mpr h]
    rfl
  have hlim : limit_end_index marker (readlines content) = none := by
    unfold limit_end_index
    rw [hm]
    exact hfrom
  show fixLines marker payload (readlines content) = none
  unfold fixLines
  rw [hlim]

/-- C4: the boundary is b exactly when there is an anchor index i at or
before b such that the line at i is the first line containing the marker
as a contiguous substring, the line at b is the first line at or after i
whose stripped content is exactly the lone closing brace. -/
theorem C4_first_marker_first_brace (marker : List Char) (L : List (List Char)) (b : Nat) :
    limit_end_index marker L = some b ↔
      ∃ i, i ≤ b ∧
        (∃ li, L[i]? = some li ∧ ∃ u v, li = u ++ marker ++ v) ∧
        (∀ k, k < i → ∀ lk, L[k]? = some lk → ¬∃ u v, lk = u ++ marker ++ v) ∧
        (∃ lb, L[b]? = some lb ∧ pyStrip lb = [rbraceChar]) ∧
        (∀ k, i ≤ k → k < b → ∀ lk, L[k]? = some lk → pyStrip lk ≠ [rbraceChar]) := by
  rw [limit_end_index_eq_some_iff]
  constructor
  · rintro ⟨i, hi, hb⟩
    obtain ⟨⟨x, hx, hpx⟩, hmin⟩ := (firstIdx_eq_some_iff _ _ _).mp hi
    obtain ⟨hib, ⟨y, hy, hpy⟩, hbmin⟩ := (firstIdxFrom_eq_some_iff _ _ _ _).mp hb
    refine ⟨i, hib, ⟨x, hx, (containsSub_iff marker x).mp hpx⟩, ?_,
      ⟨y, hy, of_decide_eq_true hpy⟩, ?_⟩
    · intro k hk lk hlk hex
      have hfalse := hmin k hk lk hlk
      have htrue := (containsSub_iff marker lk).mpr hex
      simp only [htrue] at hfalse
      cases hfalse
    · intro k hik hkb lk hlk hstrip
      have hfalse := hbmin k hik hkb lk hlk
      simp [isBraceLine, hstrip] at hfalse
  · rintro ⟨i, hib, ⟨li, hli, hex⟩, hminm, ⟨lb, hlb, hbr⟩, hminb⟩
    refine ⟨i, (firstIdx_eq_some_iff _ _ _).mpr
      ⟨⟨li, hli, (containsSub_iff _ _).mpr hex⟩, ?_⟩,
      (firstIdxFrom_eq_some_iff _ _ _ _).mpr
      ⟨hib, ⟨lb, hlb, by simp [isBraceLine, hbr]⟩, ?_⟩⟩
    · intro m hm x hx
      cases hpc : containsSub marker x with
      | false => rfl
      | true => exact absurd ((containsSub_iff _ _).mp hpc) (hminm m hm x hx)
    · intro m him hmb x hx
      cases hpc : isBraceLine x with
      | false => rfl
      | true => exact absurd (of_decide_eq_true hpc) (hminb m him hmb x hx)

/-- C5: the selected boundary line always strips to exactly the lone
closing brace; a line whose trimmed content carries anything else, such
as a brace followed by a semicolon, is never selected and the scan
continues past it. -/
theorem C5_boundary_is_lone_brace (marker : List Char) (L : List (List Char))
    (b : Nat) (lb : List Char)
    (h : limit_end_index marker L = some b) (hlb : L[b]? = some lb) :
    pyStrip lb = [rbraceChar] := by
  obtain ⟨i, _, hb⟩ := (limit_end_index_eq_some_iff marker L b).mp h
  obtain ⟨_, ⟨y, hy, hpy⟩, _⟩ := (firstIdxFrom_eq_some_iff _ _ _ _).mp hb
  have hylb : y = lb := by
    rw [hy] at hlb
    simpa using hlb
  subst hylb
  exact of_decide_eq_true hpy

/-- C8: every run reports exactly one of the two terminal outcomes: it
succeeds and rewrites the file exactly when a boundary is found, it
reports not-found and leaves the file alone exactly when no boundary is
found, and no run does both. -/
theorem C8_exactly_two_outcomes (marker payload content : List Char) :
    ((∃ out, fixTypes marker payload content = some out) ↔
      (∃ b, limit_end_index marker (readlines content) = some b)) ∧
    (fixTypes marker payload content = none ↔
      limit_end_index marker (readlines content) = none) ∧
    ¬((∃ out, fixTypes marker payload content = some out) ∧
      fixTypes marker payload content = none) := by
  cases h : limit_end_index marker (readlines content) with
  | none => simp [fixTypes, fixLines, h]
  | some b => simp [fixTypes, fixLines, h]

/-- C10: the final content depends only on the kept prefix: any line list
agreeing with the original on lines 0 through the boundary b yields the
very same operation result, whatever stands after the boundary. -/
theorem C10_suffix_independent (marker payload : List Char) (L Lp : List (List Char))
    (b : Nat) (h : limit_end_index marker L = some b)
    (ht : Lp.take (b + 1) = L.take (b + 1)) :
    fixLines marker payload Lp = fixLines marker payload L := by
  have h2 := limit_end_index_take_stable marker L Lp b h ht
  have e1 : fixLines marker payload L = some ((L.take (b + 1)).flatten ++ payload) :=
    (fixLines_eq_some_iff _ _ _ _).mpr ⟨b, h, rfl⟩
  have e2 : fixLines marker payload Lp = some ((Lp.take (b + 1)).flatten ++ payload) :=
    (fixLines_eq_some_iff _ _ _ _).mpr ⟨b, h2, rfl⟩
  rw [e1, e2, ht]

/-- Every chunk produced by readlines is a nonempty piece of the file
with a newline occurring at most as its final character. -/
theorem readlines_shape (cs : List Char) :
    ∀ l ∈ readlines cs,
      l ≠ [] ∧ ∃ m t, l = m ++ t ∧ '\n' ∉ m ∧ (t = ['\n'] ∨ t = []) := by
  induction cs with
  | nil => simp [readlines]
  | cons c cs ih =>
    by_cases hc : c = '\n'
    · subst hc
      intro l hl
      rw [readlines_cons, if_pos rfl] at hl
      rcases List.mem_cons.mp hl with hl | hl
      · subst hl
        exact ⟨by simp, [], ['\n'], by simp, by simp, Or.inl rfl⟩
      · exact ih l hl
    · cases hr : readlines cs with
      | nil =>
        have hread : readlines (c :: cs) = [[c]] := by
          rw [readlines_cons, if_neg hc, hr]
        intro l hl
        rw [hread] at hl
        have hlc : l = [c] := by simpa using hl
        subst hlc
        refine ⟨by simp, [c], [], by simp, ?_, Or.inr rfl⟩
        intro hmem
        rcases List.mem_cons.mp hmem with hmm | hmm
        · exact hc hmm.symm
        · simp at hmm
      | cons l0 ls =>
        have hread : readlines (c :: cs) = (c :: l0) :: ls := by
          rw [readlines_cons, if_neg hc, hr]
        intro l hl
        rw [hread] at hl
        rcases List.mem_cons.mp hl with hl | hl
        · obtain ⟨hne, m, t, hl0, hm, ht⟩ := ih l0 (by simp [hr])
          subst hl
          refine ⟨by simp, c :: m, t, by simp [hl0], ?_, ht⟩
          intro hmem
          rcases List.mem_cons.mp hmem with hmm | hmm
          · exact hc hmm.symm
          · exact hm hmm
        · exact ih l (by simp [hr, hl])

/-- C7 amended: immediately after the read, each element of the Source
Document is one line of the file WITH its trailing line terminator kept
in memory: elements are nonempty, hold a newline at most as their final
character, and concatenating them restores the file content exactly. -/
theorem C7_lines_keep_terminators (content : List Char) :
    (readlines content).flatten = content ∧
      ∀ l ∈ readlines content,
        l ≠ [] ∧ ∃ m t, l = m ++ t ∧ '\n' ∉ m ∧ (t = ['\n'] ∨ t = []) :=
  ⟨flatten_readlines content, readlines_shape content⟩

/-- C7 counterexample: on the file a-newline-b-newline, the first
in-memory element produced by the read is the line a together with its
trailing terminator, refuting the claim that elements carry no trailing
line terminator. -/
theorem C7_counterexample :
    (readlines "a\nb\n".data).head? = some "a\n".data ∧
      ("a\n".data).getLast? = some '\n' := by decide

/-- C6 amended: a second run against the already-modified file does not
report not-found: the anchor line is retained inside the kept prefix, so
when the original document ends with a line terminator the second run
finds the marker and the boundary again and rewrites the file instead of
failing. -/
theorem C6_second_run_succeeds (marker payload content out : List Char)
    (hnl : content.getLast? = some '\n')
    (h : fixTypes marker payload content = some out) :
    fixTypes marker payload out ≠ none := by
  rw [second_run_reproduces marker payload content out hnl h]
  simp

/-- C6 counterexample: a successful run whose payload reintroduces no
marker line, after which the second run still finds the marker and
reports success, not the claimed not-found. -/
theorem C6_counterexample :
    fixTypes "Y\x7b".data "\nQ".data "Y\x7b\n\x7d\n".data =
        some "Y\x7b\n\x7d\n\nQ".data ∧
      (∀ l ∈ readlines "\nQ".data, containsSub "Y\x7b".data l = false) ∧
      fixTypes "Y\x7b".data "\nQ".data "Y\x7b\n\x7d\n\nQ".data ≠ none := by decide

/-- C9 amended: the operation is idempotent on content for documents
ending with a line terminator: a successful run keeps the anchor line
and the boundary line in the kept prefix, so running the operation again
on the produced content reproduces that content byte for byte. -/
theorem C9_idempotent_on_terminated (marker payload content out : List Char)
    (hnl : content.getLast? = some '\n')
    (h : fixTypes marker payload content = some out) :
    fixTypes marker payload out = some out :=
  second_run_reproduces marker payload content out hnl h

/-- C9 counterexample: on a document whose boundary line lacks a
trailing terminator the operation succeeds, yet the second run glues
that line to the start of the payload on re-read and produces different
content, refuting unconditional idempotence. -/
theorem C9_counterexample :
    fixTypes "X\x7b".data "\nP".data "X\x7b\n\x7d".data = some "X\x7b\n\x7d\nP".data ∧
      fixTypes "X\x7b".data "\nP".data "X\x7b\n\x7d\nP".data =
        some "X\x7b\n\x7d\n\nP".data ∧
      "X\x7b\n\x7d\nP".data ≠ "X\x7b\n\x7d\n\nP".data := by decide

/-- C1 witness: a concrete four-line document with the marker on line 0
and the lone brace on line 2; the trailing line is discarded and the
payload appended. -/
theorem C1_witness :
    ∃ b rest,
      limit_end_index "M\x7b".data (readlines "M\x7b\nbody\n\x7d\nafter\n".data) = some b ∧
      b ≤ 2 ∧
      "M\x7b\nbody\n\x7d\nafter\n".data =
        ((readlines "M\x7b\nbody\n\x7d\nafter\n".data).take (b + 1)).flatten ++ rest ∧
      fixTypes "M\x7b".data "PAY".data "M\x7b\nbody\n\x7d\nafter\n".data =
        some (((readlines "M\x7b\nbody\n\x7d\nafter\n".data).take (b + 1)).flatten ++
          "PAY".data) :=
  C1_truncate_and_append "M\x7b".data "PAY".data "M\x7b\nbody\n\x7d\nafter\n".data 0 2
    "\x7d\n".data (by decide) (by decide) (by decide) (by decide)

/-- C2 witness: a document without the marker is left alone. -/
theorem C2_witness :
    fixTypes "ZZZ".data "PAY".data "alpha\nbeta\n".data = none :=
  C2_marker_absent_no_write "ZZZ".data "PAY".data "alpha\nbeta\n".data (by decide)

/-- C3 witness: the marker is present but only a brace-semicolon line
follows, so nothing is written. -/
theorem C3_witness :
    fixTypes "N\x7b".data "PAY".data "N\x7b\nfoo\n\x7d;\n".data = none :=
  C3_no_boundary_no_write "N\x7b".data "PAY".data "N\x7b\nfoo\n\x7d;\n".data 0
    (by decide) (by decide)

/-- C5 witness: with a brace-semicolon line at index 1, the boundary is
selected at index 2 and strips to the lone closing brace. -/
theorem C5_witness : pyStrip "\x7d\n".data = [rbraceChar] :=
  C5_boundary_is_lone_brace "W\x7b".data (readlines "W\x7b\n\x7d;\n\x7d\n".data) 2
    "\x7d\n".data (by decide) (by decide)

/-- C6 witness: re-running on the produced content of a concrete
successful run reports success, not not-found. -/
theorem C6_witness :
    fixTypes "A\x7b".data "\nR".data "A\x7b\n\x7d\n\nR".data ≠ none :=
  C6_second_run_succeeds "A\x7b".data "\nR".data "A\x7b\n\x7d\nrest\n".data
    "A\x7b\n\x7d\n\nR".data (by decide) (by decide)

/-- C9 witness: on a concrete newline-terminated document the second run
reproduces the first output exactly. -/
theorem C9_witness :
    fixTypes "B\x7b".data "\nS".data "B\x7b\nx\n\x7d\n\nS".data =
      some "B\x7b\nx\n\x7d\n\nS".data :=
  C9_idempotent_on_terminated "B\x7b".data "\nS".data "B\x7b\nx\n\x7d\ntail\n".data
    "B\x7b\nx\n\x7d\n\nS".data (by decide) (by decide)

/-- C7 witness: on a concrete two-line file the chunks concatenate back
to the content and the first chunk is a nonempty line with its newline
kept as final character. -/
theorem C7_witness :
    (readlines "ab\ncd".data).flatten = "ab\ncd".data ∧
      ("ab\n".data ≠ [] ∧ ∃ m t, "ab\n".data = m ++ t ∧ '\n' ∉ m ∧
        (t = ['\n'] ∨ t = [])) :=
  ⟨(C7_lines_keep_terminators "ab\ncd".data).1,
    (C7_lines_keep_terminators "ab\ncd".data).2 "ab\n".data (by decide)⟩

/-- C10 witness: two line lists sharing the first two lines produce the
same result although their suffixes differ. -/
theorem C10_witness :
    fixLines "G\x7b".data "PAY".data (readlines "G\x7b\n\x7d\nother\nmore\n".data) =
      fixLines "G\x7b".data "PAY".data (readlines "G\x7b\n\x7d\ntail\n".data) :=
  C10_suffix_independent "G\x7b".data "PAY".data (readlines "G\x7b\n\x7d\ntail\n".data)
    (readlines "G\x7b\n\x7d\nother\nmore\n".data) 1 (by decide) (by decide)

end FixTypes
